import Mathlib

/-!
Verification of the RIPE API query tool's core pipeline (src/ripe.py):
field extraction (`extract_fields_from_xml` / `extract_fields_from_json`),
the CIDR normalizer (`convert_to_cidr`, which the source delegates to
netaddr's `IPRange`/`cidr_merge`), the row builder (`prepare_targets`) and
the renderers (`print_table`, the JSON and XML branches of
`output_results`).

Python strings are modelled by Lean `String` (a list of characters), with
the library string operations the source uses (`split`, `strip`, `lower`,
`join`) re-implemented structurally so that every definition evaluates
inside the kernel.  Python dicts of strings are modelled as association
lists with Python's update semantics: an assignment to an existing key
keeps its position, a new key is appended.  IPv4 addresses are `Nat`s
below `2 ^ 32`.
-/

namespace RipeTool

/-! ### Python string primitives -/

/-- Python's notion of whitespace for `str.strip()` (ASCII part). -/
def pyIsSpace (c : Char) : Bool :=
  c = ' ' || c = '\t' || c = '\n' || c = '\r' || c = '\x0b' || c = '\x0c'

/-- `str.strip()`: drop whitespace from both ends. -/
def pyStrip (s : String) : String :=
  String.mk (((s.data.dropWhile pyIsSpace).reverse.dropWhile pyIsSpace).reverse)

/-- Drop trailing whitespace only (used to model the regex `\s*-\s*$`). -/
def rstripChars (l : List Char) : List Char :=
  (l.reverse.dropWhile pyIsSpace).reverse

/-- `str.lower()` (ASCII case mapping, all field names here are ASCII). -/
def pyLower (s : String) : String :=
  String.mk (s.data.map Char.toLower)

/-- Worker for `str.split(sep)` with a non-empty separator: scan left to
right, cutting at each leftmost non-overlapping occurrence of `sep`.  The
fuel argument (instantiated with the length of the input) only makes the
recursion structural; one character or one separator is consumed per
step, so the fuel never runs out. -/
def splitChars (sep : List Char) : Nat → List Char → List Char → List (List Char)
  | _, acc, [] => [acc]
  | 0, acc, l => [acc ++ l]
  | fuel + 1, acc, c :: rest =>
    if sep ≠ [] ∧ sep.isPrefixOf (c :: rest) then
      acc :: splitChars sep fuel [] ((c :: rest).drop sep.length)
    else
      splitChars sep fuel (acc ++ [c]) rest

/-- `str.split(sep)` for a non-empty separator string. -/
def pySplit (s : String) (sep : String) : List String :=
  (splitChars sep.data s.data.length [] s.data).map String.mk

/-- `sep.join(l)`. -/
def pyJoin (sep : String) : List String → String
  | [] => ""
  | x :: xs => xs.foldl (fun acc y => acc ++ sep ++ y) x

/-! ### Python dicts of strings

A `Rec` is one extracted record: a mapping from (lowercased) field name
to value, with Python dict semantics (insertion order; assignment to an
existing key keeps its position). -/

/-- One record: association list in insertion order. -/
abbrev Rec := List (String × String)

/-- `entry[k] = v`: update in place if the key exists, else append. -/
def dictSet (d : Rec) (k v : String) : Rec :=
  if d.any (fun p => p.1 = k) then
    d.map (fun p => if p.1 = k then (k, v) else p)
  else
    d ++ [(k, v)]

/-- `entry.get(k, dflt)`. -/
def dictGet (d : Rec) (k dflt : String) : String :=
  match d.find? (fun p => p.1 = k) with
  | some p => p.2
  | none => dflt

/-- `k in entry`. -/
def dictHasKey (d : Rec) (k : String) : Bool :=
  d.any (fun p => p.1 = k)

/-- `entry.keys()` in insertion order. -/
def dictKeys (d : Rec) : List String :=
  d.map (fun p => p.1)

/-! ### Failure-propagating iteration

Python list comprehensions and loops evaluate left to right and an
uncaught exception aborts the whole computation; `none` models that. -/

/-- Map a fallible function over a list, failing on the first failure. -/
def mapOption {α β : Type} (f : α → Option β) : List α → Option (List β)
  | [] => some []
  | x :: xs =>
    match f x, mapOption f xs with
    | some y, some ys => some (y :: ys)
    | _, _ => none

/-- Fold a fallible function over a list, failing on the first failure. -/
def foldOption {α β : Type} (f : β → α → Option β) : β → List α → Option β
  | b, [] => some b
  | b, x :: xs =>
    match f b x with
    | some b2 => foldOption f b2 xs
    | none => none

/-! ### CIDR normalizer (`convert_to_cidr`)

The source feeds `"start - end"` texts through a trailing-hyphen cleanup
regex, `split(' - ')`, and netaddr's `IPRange`/`cidr_merge`, falling back
to the original text on any exception.  netaddr's parser is modelled for
the IPv4 dotted quads that populate the `inetnum` field: four decimal
octets `0..255` without leading zeros.  A CIDR block is a pair
`(start, exp)` standing for the aligned interval
`[start, start + 2 ^ exp - 1]` and printed as `a.b.c.d/(32 - exp)`. -/

/-- Parse one decimal octet `0..255`, rejecting empty text, non-digits
and leading zeros (netaddr's inet_pton-style IPv4 parsing). -/
def parseOctet (s : String) : Option Nat :=
  let cs := s.data
  if cs ≠ [] ∧ cs.all Char.isDigit ∧ (cs.length = 1 ∨ cs.head? ≠ some '0') then
    let n := cs.foldl (fun acc c => acc * 10 + (c.toNat - 48)) 0
    if n ≤ 255 then some n else none
  else none

/-- Parse a dotted-quad IPv4 address into a `Nat` below `2 ^ 32`. -/
def parseIPv4 (s : String) : Option Nat :=
  match pySplit s "." with
  | [a, b, c, d] =>
    match parseOctet a, parseOctet b, parseOctet c, parseOctet d with
    | some oa, some ob, some oc, some od =>
      some (oa * 16777216 + ob * 65536 + oc * 256 + od)
    | _, _, _, _ => none
  | _ => none

/-- `re.sub(r'\s*-\s*$', '', s)`: remove one trailing hyphen together
with the whitespace around it; leave the text untouched when it does not
end in (whitespace then) a hyphen. -/
def stripTrailingHyphen (s : String) : String :=
  let t := rstripChars s.data
  if t.getLast? = some '-' then String.mk (rstripChars t.dropLast) else s

/-- The parsing stage of `convert_to_cidr`: cleanup, `split(' - ')` into
exactly two parts, strip and parse both endpoints, and require
`start ≤ end` (netaddr's `IPRange` raises when the bounds are inverted).
`none` models every exception path the source catches. -/
def parseRange (s : String) : Option (Nat × Nat) :=
  match pySplit (stripTrailingHyphen s) " - " with
  | [a, b] =>
    match parseIPv4 (pyStrip a), parseIPv4 (pyStrip b) with
    | some lo, some hi => if lo ≤ hi then some (lo, hi) else none
    | _, _ => none
  | _ => none

/-- A CIDR block `(start, exp)` covers addresses
`start ≤ x < start + 2 ^ exp`. -/
def inBlock (x : Nat) (b : Nat × Nat) : Prop :=
  b.1 ≤ x ∧ x < b.1 + 2 ^ b.2

instance (x : Nat) (b : Nat × Nat) : Decidable (inBlock x b) := by
  unfold inBlock; infer_instance

/-- Largest `j ≤ n` such that `2 ^ j` divides `s` and the block of
`2 ^ j` addresses starting at `s` still fits inside `[s, e]`. -/
def maxBlockExpAux : Nat → Nat → Nat → Nat
  | 0, _, _ => 0
  | j + 1, s, e =>
    if s % 2 ^ (j + 1) = 0 ∧ s + 2 ^ (j + 1) ≤ e + 1 then j + 1
    else maxBlockExpAux j s e

/-- The exponent of the greedy block chosen at `s` for the range
`[s, e]` (32 caps the search at a whole `/0`). -/
def maxBlockExp (s e : Nat) : Nat :=
  maxBlockExpAux 32 s e

/-- Greedy range-to-CIDR conversion: repeatedly emit the largest aligned
block starting at the low end of what remains.  This is the list netaddr
computes for `cidr_merge(IPRange(start, end))`.  The fuel (instantiated
with `e + 1 - s`) only makes the recursion structural; each step
advances the start by at least one address. -/
def rangeToCidrsAux : Nat → Nat → Nat → List (Nat × Nat)
  | 0, _, _ => []
  | fuel + 1, s, e =>
    if s ≤ e then
      let j := maxBlockExp s e
      (s, j) :: rangeToCidrsAux fuel (s + 2 ^ j) e
    else []

/-- The minimal CIDR cover of `[s, e]`, in ascending address order. -/
def rangeToCidrs (s e : Nat) : List (Nat × Nat) :=
  rangeToCidrsAux (e + 1 - s) s e

/-- Dotted-quad rendering of an IPv4 address. -/
def ipToString (n : Nat) : String :=
  toString (n / 16777216 % 256) ++ "." ++ toString (n / 65536 % 256) ++ "." ++
    toString (n / 256 % 256) ++ "." ++ toString (n % 256)

/-- netaddr's canonical string for a block: `a.b.c.d/prefixlen`. -/
def blockToString (b : Nat × Nat) : String :=
  ipToString b.1 ++ "/" ++ toString (32 - b.2)

/-- `convert_to_cidr` (src/ripe.py:135-150): convert an `inetnum` range
text to its list of canonical CIDR strings; on any parse failure return
the original text as a single-element list. -/
def convert_to_cidr (inetnum : String) : List String :=
  match parseRange inetnum with
  | some (s, e) => (rangeToCidrs s e).map blockToString
  | none => [inetnum]

example : convert_to_cidr "192.0.2.0 - 192.0.2.3" = ["192.0.2.0/30"] := by decide

example : convert_to_cidr "not-a-range" = ["not-a-range"] := by decide

example : convert_to_cidr "192.0.2.3 - 192.0.2.0" = ["192.0.2.3 - 192.0.2.0"] := by
  decide

example : convert_to_cidr "10.0.0.0 - 10.0.0.8" =
    ["10.0.0.0/29", "10.0.0.8/32"] := by decide

example : convert_to_cidr "0.0.0.0 - 255.255.255.255" = ["0.0.0.0/0"] := by decide

example : parseRange "192.0.2.0 - 192.0.2.3 - " = some (3221225984, 3221225987) := by
  decide

/-! ### Field extractors

`extract_fields_from_xml` receives a parsed ElementTree: each `<str>`
element carries an optional `name` attribute and an optional text (an
empty XML element parses with text `None`, on which `.strip()` raises).
`extract_fields_from_json` receives parsed JSON: each member of `strs`
carries optional `name` and `value` entries.  A logical response is a
list of entries, each a list of `(name, value)` string fields; the two
encoders below map it to the two physical shapes. -/

/-- One `<str name=...>text</str>` element of a parsed XML response. -/
structure XmlStr where
  name : Option String
  text : Option String
deriving DecidableEq

/-- One `{"name": ..., "value": ...}` member of a JSON response's `strs`. -/
structure JsonStr where
  name : Option String
  value : Option String
deriving DecidableEq

/-- Python truthiness of `field.attrib.get("name")` and friends:
present and non-empty. -/
def optTruthy (o : Option String) : Bool :=
  match o with
  | some s => s ≠ ""
  | none => false

/-- The trailing fixup of both extractors: when a filter list was given,
insert every missing filter field with an empty value. -/
def fillFilters (entry : Rec) (filters : List String) : Rec :=
  filters.foldl (fun e f => if dictHasKey e f then e else e ++ [(f, "")]) entry

/-- One step of the XML extractor's field loop; `none` models the
`AttributeError` raised by `field.text.strip()` when the element has no
text. -/
def xmlFieldStep (filters : List String) (entry : Rec) (field : XmlStr) :
    Option Rec :=
  match field.name with
  | some nm =>
    if nm ≠ "" then
      if pyLower nm = "inetnum" then
        match field.text with
        | some t => some (dictSet entry "inetnum" (pyStrip t))
        | none => none
      else if filters = [] ∨ pyLower nm ∈ filters then
        match field.text with
        | some t => some (dictSet entry (pyLower nm) (pyStrip t))
        | none => none
      else some entry
    else some entry
  | none => some entry

/-- `extract_fields_from_xml` (src/ripe.py:81-105) over the list of
`doc` elements, each listing its `str` elements.  `none` models an
uncaught exception. -/
def extract_fields_from_xml (docs : List (List XmlStr)) (filters : List String) :
    Option (List Rec) :=
  mapOption (fun doc =>
    (foldOption (xmlFieldStep filters) [] doc).map
      (fun entry => if filters = [] then entry else fillFilters entry filters))
    docs

/-- One step of the JSON extractor's field loop: fields lacking a truthy
name or a truthy value are skipped (`if field_name and field_value:`). -/
def jsonFieldStep (filters : List String) (entry : Rec) (field : JsonStr) : Rec :=
  match field.name, field.value with
  | some nm, some v =>
    if nm ≠ "" ∧ v ≠ "" then
      if pyLower nm = "inetnum" then dictSet entry "inetnum" (pyStrip v)
      else if filters = [] ∨ pyLower nm ∈ filters then
        dictSet entry (pyLower nm) (pyStrip v)
      else entry
    else entry
  | _, _ => entry

/-- `extract_fields_from_json` (src/ripe.py:107-133) over the list of
docs, each listing its `strs` members. -/
def extract_fields_from_json (docs : List (List JsonStr)) (filters : List String) :
    List Rec :=
  docs.map (fun doc =>
    let entry := doc.foldl (jsonFieldStep filters) []
    if filters = [] then entry else fillFilters entry filters)

/-- XML encoding of a logical entry: ElementTree parses an empty element
(`<str name="n"/>`) with text `None`, so an empty field value has no XML
text node. -/
def encodeXmlEntry (entry : List (String × String)) : List XmlStr :=
  entry.map (fun p => ⟨some p.1, if p.2 = "" then none else some p.2⟩)

/-- JSON encoding of a logical entry. -/
def encodeJsonEntry (entry : List (String × String)) : List JsonStr :=
  entry.map (fun p => ⟨some p.1, some p.2⟩)

/-- Extraction of a logical response through its XML encoding. -/
def extractXmlLogical (resp : List (List (String × String)))
    (filters : List String) : Option (List Rec) :=
  extract_fields_from_xml (resp.map encodeXmlEntry) filters

/-- Extraction of a logical response through its JSON encoding. -/
def extractJsonLogical (resp : List (List (String × String)))
    (filters : List String) : List Rec :=
  extract_fields_from_json (resp.map encodeJsonEntry) filters

example : extractJsonLogical [[("Foo", " v "), ("inetnum", "1.2.3.4 - 1.2.3.5")]] [] =
    [[("foo", "v"), ("inetnum", "1.2.3.4 - 1.2.3.5")]] := by decide

example : extractXmlLogical [[("Foo", " v ")]] ["bar"] =
    some [[("bar", "")]] := by decide

example : extractXmlLogical [[("foo", "")]] [] = none := by decide

example : extractJsonLogical [[("foo", "")]] [] = [[]] := by decide

/-! ### Row builder (`prepare_targets`) -/

/-- The body of the row loop: read each header's value from the record,
converting a non-empty `inetnum` cell to comma-joined CIDR blocks when
the CIDR flag is set (src/ripe.py:170-176 and 188-195). -/
def buildRow (headers : List String) (entry : Rec) (cidr : Bool) : List String :=
  headers.map (fun field =>
    let value := dictGet entry field ""
    if field = "inetnum" ∧ cidr = true ∧ value ≠ "" then
      pyJoin "," (convert_to_cidr value)
    else value)

/-- The pre-filter of the filtered branch:
`all(not entry.get(field, "") for field in filters)`. -/
def allFiltersEmpty (entry : Rec) (filters : List String) : Bool :=
  filters.all (fun field => dictGet entry field "" = "")

/-- The accumulation loop shared by both branches of `prepare_targets`:
`pre` switches the filtered branch's record pre-filter on, `seen` is the
deduplication set (consulted and extended only when `uniq` is set). -/
def prepAux (headers : List String) (pre : Bool) (filters : List String)
    (cidr uniq : Bool) : List Rec → List (List String) → List (List String)
  | [], _ => []
  | entry :: rest, seen =>
    if pre = true ∧ allFiltersEmpty entry filters then
      prepAux headers pre filters cidr uniq rest seen
    else if (buildRow headers entry cidr).any (fun c => c ≠ "") then
      if uniq = true then
        if buildRow headers entry cidr ∈ seen then
          prepAux headers pre filters cidr uniq rest seen
        else
          buildRow headers entry cidr ::
            prepAux headers pre filters cidr uniq rest (buildRow headers entry cidr :: seen)
      else buildRow headers entry cidr :: prepAux headers pre filters cidr uniq rest seen
    else prepAux headers pre filters cidr uniq rest seen

/-- `sorted(...)` on a list of strings (Python's sort order is the same
lexicographic comparison of code points as `String`'s `≤`). -/
def sortStrings (l : List String) : List String :=
  l.insertionSort (· ≤ ·)

/-- `sorted({key for entry in extracted_entries for key in entry.keys()})`:
the headers of the no-filter branch. -/
def allHeaders (entries : List Rec) : List String :=
  sortStrings (entries.flatMap dictKeys).dedup

/-- `prepare_targets` (src/ripe.py:152-203). -/
def prepare_targets (entries : List Rec) (filters : List String)
    (cidr uniq : Bool) : List String × List (List String) :=
  if filters = [] then
    let headers := allHeaders entries
    (headers, prepAux headers false [] cidr uniq entries [])
  else
    (filters, prepAux filters true filters cidr uniq entries [])

example : prepare_targets [[("inetnum", "192.0.2.0 - 192.0.2.3")]]
    ["inetnum"] true false = (["inetnum"], [["192.0.2.0/30"]]) := by decide

example : prepare_targets [[("a", "x"), ("b", "y")], [("a", "x"), ("b", "y")]]
    ["a", "b"] false true = (["a", "b"], [["x", "y"]]) := by decide

example : prepare_targets [[("a", ""), ("b", "")], [("a", "1")]]
    ["a", "b"] false false = (["a", "b"], [["1", ""]]) := by decide

/-! ### Renderers

The JSON and XML branches of `output_results` are modelled at the level
of the data value they hand to the serializer (`json.dumps` /
`ET.tostring` are external library collaborators whose round trip is
their own contract).  `print_table` is modelled as the list of lines it
prints.  `none` models an uncaught `IndexError`. -/

/-- The JSON value `output_results` builds before `json.dumps`. -/
inductive JValue where
  | str : String → JValue
  | obj : List (String × String) → JValue
  | arr : List JValue → JValue

/-- `dict(pairs)`: fold the pairs through Python dict assignment. -/
def pyDict (pairs : List (String × String)) : Rec :=
  pairs.foldl (fun d p => dictSet d p.1 p.2) []

/-- The `output_type == "json"` branch of `output_results`
(src/ripe.py:330-339): more than one header gives a list of
`dict(zip(headers, row))` objects, exactly one header a list of the
rows' first cells (`row[0]`, raising on an empty row), no header an
empty list. -/
def output_results_json (headers : List String) (rows : List (List String)) :
    Option JValue :=
  if headers.length > 1 then
    some (.arr (rows.map (fun row => .obj (pyDict (headers.zip row)))))
  else if headers.length = 1 then
    (mapOption List.head? rows).map (fun vs => .arr (vs.map .str))
  else
    some (.arr [])

/-- An ElementTree node: tag, child elements, text. -/
inductive XNode where
  | mk : String → List XNode → Option String → XNode

/-- The `output_type == "xml"` branch of `output_results`
(src/ripe.py:340-351): a `Targets` root with one `Target` child per row;
with several headers each `Target` holds one child per `zip(headers,
row)` pair, with exactly one header the single field element reads
`row[0]` (raising on an empty row). -/
def output_results_xml (headers : List String) (rows : List (List String)) :
    Option XNode :=
  if headers.length > 1 then
    some (.mk "Targets"
      (rows.map (fun row =>
        .mk "Target" ((headers.zip row).map (fun p => .mk p.1 [] (some p.2))) none))
      none)
  else if headers.length = 1 then
    (mapOption (fun row =>
      row.head?.map (fun v => XNode.mk "Target" [.mk (headers.headD "") [] (some v)] none))
      rows).map (fun ts => .mk "Targets" ts none)
  else
    some (.mk "Targets" (rows.map (fun _ => .mk "Target" [] none)) none)

/-- `'{:<w}'`: left-justify to width `w` with spaces (no truncation). -/
def ljust (s : String) (w : Nat) : String :=
  s ++ String.mk (List.replicate (w - s.length) ' ')

/-- The column-width update of one row
(`column_widths[i] = max(column_widths[i], len(cell))`); `none` models
the `IndexError` raised when a row is longer than the header list. -/
def updateWidths : List Nat → List String → Option (List Nat)
  | ws, [] => some ws
  | w :: ws, cell :: cells =>
    (updateWidths ws cells).map (fun rest => max w cell.length :: rest)
  | [], _ :: _ => none

/-- `column_widths`: start from the header lengths and widen by every
cell (src/ripe.py:216-219). -/
def computeWidths (headers : List String) (rows : List (List String)) :
    Option (List Nat) :=
  rows.foldlM updateWidths (headers.map String.length)

/-- `row_format.format(*row)`: the first `len(widths)` cells padded to
their column widths and joined by `" | "`; `none` models the
`IndexError` raised when the row has fewer cells than columns. -/
def formatRow (ws : List Nat) (row : List String) : Option String :=
  if ws.length ≤ row.length then
    some (pyJoin " | " ((ws.zip row).map (fun p => ljust p.2 p.1)))
  else none

/-- The separator line: `'-'` runs joined by `'-+-'` (src/ripe.py:227). -/
def sepLine (ws : List Nat) : String :=
  pyJoin "-+-" (ws.map (fun w => String.mk (List.replicate w '-')))

/-- `print_table` (src/ripe.py:205-230) as the list of printed lines. -/
def print_table (headers : List String) (rows : List (List String)) :
    Option (List String) :=
  if headers = [] then some ["No data to display."]
  else do
    let ws ← computeWidths headers rows
    let headerLine ← formatRow ws headers
    let dataLines ← mapOption (formatRow ws) rows
    pure (headerLine :: sepLine ws :: dataLines)

example : print_table ["a", "bb"] [["1", "22"]] =
    some ["a | bb", "--+---", "1 | 22"] := by decide

example : output_results_json ["h"] [[]] = none := rfl

example : output_results_json ["h", "k"] [["1", "2"]] =
    some (.arr [.obj [("h", "1"), ("k", "2")]]) := rfl

/-! ### Deduplication order helper

Keeping the first occurrence of each element, in order; `seen` lists the
elements already emitted earlier. -/

/-- Drop every element already in `seen` or seen earlier in the list. -/
def eraseDupsAux {α : Type} [DecidableEq α] (seen : List α) : List α → List α
  | [] => []
  | x :: xs =>
    if x ∈ seen then eraseDupsAux seen xs else x :: eraseDupsAux (x :: seen) xs

/-- Keep only the first occurrence of each element, in order. -/
def eraseDupsKeepFirst {α : Type} [DecidableEq α] (l : List α) : List α :=
  eraseDupsAux [] l

/-! ## Helper lemmas about the row builder -/

theorem buildRow_length (h : List String) (e : Rec) (c : Bool) :
    (buildRow h e c).length = h.length := by
  simp [buildRow]

/-- Every row the accumulation loop emits has one cell per header and at
least one non-empty cell. -/
theorem prepAux_mem {h : List String} {pre : Bool} {f : List String} {c u : Bool} :
    ∀ {entries : List Rec} {seen : List (List String)} {row : List String},
      row ∈ prepAux h pre f c u entries seen →
      row.length = h.length ∧ row.any (fun cell => cell ≠ "") = true := by
  intro entries
  induction entries with
  | nil => intro seen row hm; simp [prepAux] at hm
  | cons e rest ih =>
    intro seen row hm
    simp only [prepAux] at hm
    split at hm
    · exact ih hm
    · split at hm
      · split at hm
        · split at hm
          · exact ih hm
          · rcases List.mem_cons.mp hm with h1 | h1
            · subst h1; exact ⟨buildRow_length h e c, by assumption⟩
            · exact ih h1
        · rcases List.mem_cons.mp hm with h1 | h1
          · subst h1; exact ⟨buildRow_length h e c, by assumption⟩
          · exact ih h1
      · exact ih hm

/-- Without deduplication the loop is: pre-filter the records, build one
row each, drop the all-empty rows — in accumulation order. -/
theorem prepAux_no_dedupe (h : List String) (pre : Bool) (f : List String)
    (c : Bool) :
    ∀ (entries : List Rec) (seen : List (List String)),
      prepAux h pre f c false entries seen =
        ((entries.filter (fun en => !(pre && allFiltersEmpty en f))).map
            (fun en => buildRow h en c)).filter
          (fun r => r.any (fun cell => cell ≠ "")) := by
  intro entries
  induction entries with
  | nil => intro seen; simp [prepAux]
  | cons e rest ih =>
    intro seen
    simp only [prepAux, List.filter_cons]
    by_cases hpre : pre = true ∧ allFiltersEmpty e f = true
    · have hb : (!(pre && allFiltersEmpty e f)) = false := by
        rw [hpre.1, hpre.2]; rfl
      rw [if_pos hpre, hb, if_neg Bool.false_ne_true, ih]
    · have hb : (!(pre && allFiltersEmpty e f)) = true := by
        cases hp : pre with
        | false => rfl
        | true =>
          cases hf : allFiltersEmpty e f with
          | false => rfl
          | true => exact absurd ⟨hp, hf⟩ hpre
      rw [if_neg hpre, hb, if_pos rfl, List.map_cons, List.filter_cons]
      by_cases hrow : ((buildRow h e c).any fun cell => decide (cell ≠ "")) = true
      · rw [if_pos hrow, if_pos hrow, if_neg Bool.false_ne_true, ih]
      · rw [if_neg hrow, if_neg hrow, ih]

/-- The no-dedupe run does not depend on the seen set. -/
theorem prepAux_seen_irrel (h : List String) (pre : Bool) (f : List String)
    (c : Bool) (entries : List Rec) (seen seen' : List (List String)) :
    prepAux h pre f c false entries seen = prepAux h pre f c false entries seen' := by
  rw [prepAux_no_dedupe, prepAux_no_dedupe]

/-- With deduplication the loop keeps exactly the first occurrence of
each row of the non-deduplicated run. -/
theorem prepAux_dedupe (h : List String) (pre : Bool) (f : List String)
    (c : Bool) :
    ∀ (entries : List Rec) (seen : List (List String)),
      prepAux h pre f c true entries seen =
        eraseDupsAux seen (prepAux h pre f c false entries seen) := by
  intro entries
  induction entries with
  | nil => intro seen; simp [prepAux, eraseDupsAux]
  | cons e rest ih =>
    intro seen
    simp only [prepAux]
    by_cases hpre : pre = true ∧ allFiltersEmpty e f = true
    · rw [if_pos hpre, if_pos hpre]
      exact ih seen
    · rw [if_neg hpre, if_neg hpre]
      by_cases hrow : ((buildRow h e c).any fun cell => decide (cell ≠ "")) = true
      · rw [if_pos hrow, if_pos hrow, if_pos trivial, if_neg Bool.false_ne_true]
        simp only [eraseDupsAux]
        by_cases hseen : buildRow h e c ∈ seen
        · rw [if_pos hseen, if_pos hseen]
          exact ih seen
        · rw [if_neg hseen, if_neg hseen, ih (buildRow h e c :: seen),
            prepAux_seen_irrel h pre f c rest (buildRow h e c :: seen) seen]
      · rw [if_neg hrow, if_neg hrow]
        exact ih seen

/-- `eraseDupsAux` returns a sublist. -/
theorem eraseDupsAux_sublist {α : Type} [DecidableEq α] :
    ∀ (l : List α) (seen : List α), (eraseDupsAux seen l).Sublist l := by
  intro l
  induction l with
  | nil => intro seen; simp [eraseDupsAux]
  | cons x xs ih =>
    intro seen
    simp only [eraseDupsAux]
    by_cases hx : x ∈ seen
    · rw [if_pos hx]
      exact (ih seen).cons x
    · rw [if_neg hx]
      exact (ih (x :: seen)).cons₂ x

/-- `eraseDupsAux` emits no duplicates and nothing from `seen`. -/
theorem eraseDupsAux_nodup {α : Type} [DecidableEq α] :
    ∀ (l : List α) (seen : List α),
      (eraseDupsAux seen l).Nodup ∧ ∀ x ∈ eraseDupsAux seen l, x ∉ seen := by
  intro l
  induction l with
  | nil => intro seen; simp [eraseDupsAux]
  | cons x xs ih =>
    intro seen
    simp only [eraseDupsAux]
    by_cases hx : x ∈ seen
    · rw [if_pos hx]
      exact ⟨(ih seen).1, (ih seen).2⟩
    · rw [if_neg hx]
      refine ⟨List.nodup_cons.mpr ⟨fun hmem => ?_, (ih (x :: seen)).1⟩, ?_⟩
      · exact (ih (x :: seen)).2 x hmem (List.mem_cons_self x seen)
      · intro y hy
        rcases List.mem_cons.mp hy with h1 | h1
        · subst h1; exact hx
        · intro hys
          exact (ih (x :: seen)).2 y h1 (List.mem_cons_of_mem x hys)

/-- The pre-filter skip behaves as filtering the record list up front. -/
theorem prepAux_prefilter (h : List String) (f : List String) (c u : Bool) :
    ∀ (entries : List Rec) (seen : List (List String)),
      prepAux h true f c u entries seen =
        prepAux h true f c u (entries.filter (fun en => !allFiltersEmpty en f)) seen := by
  intro entries
  induction entries with
  | nil => intro seen; simp
  | cons e rest ih =>
    intro seen
    by_cases he : allFiltersEmpty e f = true
    · have hb : (!allFiltersEmpty e f) = false := by rw [he]; rfl
      have hskip : True ∧ allFiltersEmpty e f = true := ⟨trivial, he⟩
      simp only [prepAux, if_pos hskip, List.filter_cons]
      rw [hb, if_neg Bool.false_ne_true]
      exact ih seen
    · have hb : (!allFiltersEmpty e f) = true := by
        cases hf : allFiltersEmpty e f with
        | false => rfl
        | true => exact absurd hf he
      have hskip : ¬(True ∧ allFiltersEmpty e f = true) := fun hcon => he hcon.2
      simp only [List.filter_cons]
      rw [hb, if_pos rfl]
      simp only [prepAux]
      rw [if_neg hskip, if_neg hskip]
      by_cases hrow : ((buildRow h e c).any fun cell => decide (cell ≠ "")) = true
      · rw [if_pos hrow, if_pos hrow]
        by_cases hu : u = true
        · rw [if_pos hu, if_pos hu]
          by_cases hseen : buildRow h e c ∈ seen
          · rw [if_pos hseen, if_pos hseen]
            exact ih seen
          · rw [if_neg hseen, if_neg hseen, ih]
        · rw [if_neg hu, if_neg hu, ih]
      · rw [if_neg hrow, if_neg hrow]
        exact ih seen

/-- `prepare_targets` laid out by branch. -/
theorem prepare_targets_eq (entries : List Rec) (filters : List String)
    (c u : Bool) :
    prepare_targets entries filters c u =
      if filters = [] then
        (allHeaders entries, prepAux (allHeaders entries) false [] c u entries [])
      else (filters, prepAux filters true filters c u entries []) := rfl

/-- A fallible map succeeds when every element succeeds. -/
theorem mapOption_isSome {α β : Type} (f : α → Option β) :
    ∀ (l : List α), (∀ x ∈ l, (f x).isSome = true) →
      (mapOption f l).isSome = true := by
  intro l
  induction l with
  | nil => intro _; rfl
  | cons x xs ih =>
    intro hall
    have hx := hall x (List.mem_cons_self x xs)
    have hxs := ih (fun y hy => hall y (List.mem_cons_of_mem x hy))
    simp only [mapOption]
    cases hfx : f x with
    | none => rw [hfx] at hx; exact absurd hx (by simp)
    | some y =>
      cases hrest : mapOption f xs with
      | none => rw [hrest] at hxs; exact absurd hxs (by simp)
      | some ys => rfl

/-- `[row[0] for row in rows]` over non-empty rows: first cells. -/
theorem mapOption_head {rows : List (List String)} (h : ∀ r ∈ rows, r ≠ []) :
    mapOption List.head? rows = some (rows.map (fun r => r.headD "")) := by
  induction rows with
  | nil => rfl
  | cons r rest ih =>
    have hr := h r (List.mem_cons_self r rest)
    have hrest := ih (fun y hy => h y (List.mem_cons_of_mem r hy))
    cases r with
    | nil => exact absurd rfl hr
    | cons a as => simp only [mapOption, List.head?, hrest, List.map_cons, List.headD]

/-! ## The greedy CIDR cover: basic facts -/

/-- The exponent search always returns a feasible exponent. -/
theorem maxBlockExpAux_spec (n s e : Nat) (h : s ≤ e) :
    2 ^ maxBlockExpAux n s e ∣ s ∧ s + 2 ^ maxBlockExpAux n s e ≤ e + 1 := by
  induction n with
  | zero =>
    simp only [maxBlockExpAux, pow_zero]
    exact ⟨Nat.one_dvd s, by omega⟩
  | succ m ih =>
    simp only [maxBlockExpAux]
    by_cases hc : s % 2 ^ (m + 1) = 0 ∧ s + 2 ^ (m + 1) ≤ e + 1
    · rw [if_pos hc]
      exact ⟨Nat.dvd_iff_mod_eq_zero.mpr hc.1, hc.2⟩
    · rw [if_neg hc]
      exact ih

/-- The exponent search returns the largest feasible exponent below the
fuel bound. -/
theorem maxBlockExpAux_max (n s e j : Nat) (hj : j ≤ n) (hd : 2 ^ j ∣ s)
    (hf : s + 2 ^ j ≤ e + 1) : j ≤ maxBlockExpAux n s e := by
  induction n with
  | zero => omega
  | succ m ih =>
    simp only [maxBlockExpAux]
    by_cases hc : s % 2 ^ (m + 1) = 0 ∧ s + 2 ^ (m + 1) ≤ e + 1
    · rw [if_pos hc]; omega
    · rw [if_neg hc]
      rcases Nat.lt_or_ge j (m + 1) with hlt | hge
      · exact ih (by omega)
      · have hj' : j = m + 1 := by omega
        subst hj'
        exact absurd ⟨Nat.dvd_iff_mod_eq_zero.mp hd, hf⟩ hc

/-- Feasibility of the greedy exponent. -/
theorem maxBlockExp_spec (s e : Nat) (h : s ≤ e) :
    2 ^ maxBlockExp s e ∣ s ∧ s + 2 ^ maxBlockExp s e ≤ e + 1 :=
  maxBlockExpAux_spec 32 s e h

/-- Maximality of the greedy exponent, for ranges inside the IPv4
address space. -/
theorem maxBlockExp_max (s e j : Nat) (he : e < 2 ^ 32) (hd : 2 ^ j ∣ s)
    (hf : s + 2 ^ j ≤ e + 1) : j ≤ maxBlockExp s e := by
  have hp32 : (2 : Nat) ^ 32 = 4294967296 := by norm_num
  have h2j : 2 ^ j ≤ 2 ^ 32 := by omega
  have hj32 : j ≤ 32 := (Nat.pow_le_pow_iff_right (by norm_num)).mp h2j
  exact maxBlockExpAux_max 32 s e j hj32 hd hf

/-- The fuel of `rangeToCidrsAux` is irrelevant once it covers the range
size (each step consumes at least one address). -/
theorem rangeToCidrsAux_fuel (f : Nat) : ∀ (g s e : Nat), e + 1 - s ≤ f →
    e + 1 - s ≤ g → rangeToCidrsAux f s e = rangeToCidrsAux g s e := by
  induction f with
  | zero =>
    intro g s e hf hg
    have hs : ¬s ≤ e := by omega
    cases g with
    | zero => rfl
    | succ g2 => simp only [rangeToCidrsAux, if_neg hs]
  | succ f2 ih =>
    intro g s e hf hg
    by_cases hs : s ≤ e
    · cases g with
      | zero => omega
      | succ g2 =>
        simp only [rangeToCidrsAux, if_pos hs]
        have h2 : 0 < 2 ^ maxBlockExp s e := Nat.two_pow_pos _
        rw [ih g2 (s + 2 ^ maxBlockExp s e) e (by omega) (by omega)]
    · cases g with
      | zero => simp only [rangeToCidrsAux, if_neg hs]
      | succ g2 => simp only [rangeToCidrsAux, if_neg hs]

/-- One-step unfolding of the greedy cover. -/
theorem rangeToCidrs_eq (s e : Nat) :
    rangeToCidrs s e =
      if s ≤ e then
        (s, maxBlockExp s e) :: rangeToCidrs (s + 2 ^ maxBlockExp s e) e
      else [] := by
  unfold rangeToCidrs
  by_cases hs : s ≤ e
  · rw [if_pos hs]
    have hm : e + 1 - s = (e - s) + 1 := by omega
    rw [hm]
    simp only [rangeToCidrsAux, if_pos hs]
    have h2 : 0 < 2 ^ maxBlockExp s e := Nat.two_pow_pos _
    rw [rangeToCidrsAux_fuel (e - s) (e + 1 - (s + 2 ^ maxBlockExp s e))
      (s + 2 ^ maxBlockExp s e) e (by omega) (by omega)]
  · rw [if_neg hs]
    have hm : e + 1 - s = 0 := by omega
    rw [hm]
    rfl

/-- The union of the greedy blocks is exactly the inclusive range. -/
theorem rangeToCidrs_union (s e x : Nat) (h : s ≤ e) :
    (∃ b ∈ rangeToCidrs s e, inBlock x b) ↔ (s ≤ x ∧ x ≤ e) := by
  rw [rangeToCidrs_eq, if_pos h]
  rcases maxBlockExp_spec s e h with ⟨_, hf⟩
  have h2 : 0 < 2 ^ maxBlockExp s e := Nat.two_pow_pos _
  by_cases hrec : s + 2 ^ maxBlockExp s e ≤ e
  · have ih := rangeToCidrs_union (s + 2 ^ maxBlockExp s e) e x hrec
    constructor
    · rintro ⟨b, hb, hxb⟩
      rcases List.mem_cons.mp hb with h1 | h1
      · subst h1
        rcases hxb with ⟨hx1, hx2⟩
        dsimp at hx1 hx2
        omega
      · have := ih.mp ⟨b, h1, hxb⟩
        omega
    · rintro ⟨hx1, hx2⟩
      by_cases hin : x < s + 2 ^ maxBlockExp s e
      · exact ⟨(s, maxBlockExp s e), List.mem_cons_self _ _, ⟨hx1, hin⟩⟩
      · rcases ih.mpr ⟨by omega, hx2⟩ with ⟨b, hb, hxb⟩
        exact ⟨b, List.mem_cons_of_mem _ hb, hxb⟩
  · have hend : rangeToCidrs (s + 2 ^ maxBlockExp s e) e = [] := by
      rw [rangeToCidrs_eq, if_neg (by omega)]
    rw [hend]
    constructor
    · rintro ⟨b, hb, hxb⟩
      rcases List.mem_cons.mp hb with h1 | h1
      · subst h1
        rcases hxb with ⟨hx1, hx2⟩
        dsimp at hx1 hx2
        omega
      · simp at h1
    · rintro ⟨hx1, hx2⟩
      exact ⟨(s, maxBlockExp s e), List.mem_cons_self _ _, ⟨hx1, by dsimp; omega⟩⟩
termination_by e + 1 - s
decreasing_by
  have _hstep : 0 < 2 ^ maxBlockExp s e := Nat.two_pow_pos _
  omega

/-- Every greedy block is aligned and lies inside the range, after the
running start. -/
theorem rangeToCidrs_blocks (s e : Nat) :
    ∀ b ∈ rangeToCidrs s e, s ≤ b.1 ∧ b.1 + 2 ^ b.2 ≤ e + 1 ∧ 2 ^ b.2 ∣ b.1 := by
  rw [rangeToCidrs_eq]
  by_cases h : s ≤ e
  · rw [if_pos h]
    rcases maxBlockExp_spec s e h with ⟨hd, hf⟩
    have h2 : 0 < 2 ^ maxBlockExp s e := Nat.two_pow_pos _
    intro b hb
    rcases List.mem_cons.mp hb with h1 | h1
    · subst h1
      exact ⟨le_refl s, hf, hd⟩
    · have hrec := rangeToCidrs_blocks (s + 2 ^ maxBlockExp s e) e b h1
      exact ⟨by omega, hrec.2.1, hrec.2.2⟩
  · rw [if_neg h]
    intro b hb
    simp at hb
termination_by e + 1 - s
decreasing_by
  have _hstep : 0 < 2 ^ maxBlockExp s e := Nat.two_pow_pos _
  omega

/-- The greedy blocks are pairwise disjoint and in ascending address
order: each block ends strictly before the next begins. -/
theorem rangeToCidrs_pairwise (s e : Nat) :
    List.Pairwise (fun a b => a.1 + 2 ^ a.2 ≤ b.1) (rangeToCidrs s e) := by
  rw [rangeToCidrs_eq]
  by_cases h : s ≤ e
  · rw [if_pos h]
    have h2 : 0 < 2 ^ maxBlockExp s e := Nat.two_pow_pos _
    refine List.Pairwise.cons ?_ (rangeToCidrs_pairwise (s + 2 ^ maxBlockExp s e) e)
    intro b hb
    have := (rangeToCidrs_blocks (s + 2 ^ maxBlockExp s e) e b hb).1
    dsimp
    omega
  · rw [if_neg h]
    exact List.Pairwise.nil
termination_by e + 1 - s
decreasing_by
  have _hstep : 0 < 2 ^ maxBlockExp s e := Nat.two_pow_pos _
  omega

/-! ## Minimality of the greedy CIDR cover -/

/-- Aligned power-of-two blocks are laminar: two blocks sharing an
address are nested (the smaller inside the larger). -/
theorem dyadic_laminar (b c : Nat × Nat) (hb : 2 ^ b.2 ∣ b.1) (hc : 2 ^ c.2 ∣ c.1)
    (x : Nat) (hxb : inBlock x b) (hxc : inBlock x c) (hbc : b.2 ≤ c.2) :
    c.1 ≤ b.1 ∧ b.1 + 2 ^ b.2 ≤ c.1 + 2 ^ c.2 := by
  obtain ⟨m, hm⟩ := hb
  obtain ⟨n, hn⟩ := hc
  rcases hxb with ⟨hxb1, hxb2⟩
  rcases hxc with ⟨hxc1, hxc2⟩
  have eb1 : m * 2 ^ b.2 = b.1 := by rw [hm, mul_comm]
  have eb2 : (m + 1) * 2 ^ b.2 = b.1 + 2 ^ b.2 := by rw [add_mul, one_mul, eb1]
  have hqb : x / 2 ^ b.2 = m := Nat.div_eq_of_lt_le (by omega) (by omega)
  have ec1 : n * 2 ^ c.2 = c.1 := by rw [hn, mul_comm]
  have ec2 : (n + 1) * 2 ^ c.2 = c.1 + 2 ^ c.2 := by rw [add_mul, one_mul, ec1]
  have hqc : x / 2 ^ c.2 = n := Nat.div_eq_of_lt_le (by omega) (by omega)
  have hpow : 2 ^ b.2 * 2 ^ (c.2 - b.2) = 2 ^ c.2 := by
    rw [← pow_add]
    congr 1
    omega
  have hn2 : n = m / 2 ^ (c.2 - b.2) := by
    rw [← hqc, ← hqb, Nat.div_div_eq_div_mul, hpow]
  constructor
  · rw [hn, hm, hn2, ← hpow, mul_assoc]
    exact Nat.mul_le_mul_left _ (Nat.mul_div_le m (2 ^ (c.2 - b.2)))
  · have hmod : m % 2 ^ (c.2 - b.2) < 2 ^ (c.2 - b.2) :=
      Nat.mod_lt _ (Nat.two_pow_pos _)
    have hdm : 2 ^ (c.2 - b.2) * (m / 2 ^ (c.2 - b.2)) + m % 2 ^ (c.2 - b.2) = m :=
      Nat.div_add_mod m (2 ^ (c.2 - b.2))
    have hple : m + 1 ≤ 2 ^ (c.2 - b.2) * (m / 2 ^ (c.2 - b.2)) + 2 ^ (c.2 - b.2) := by
      omega
    calc b.1 + 2 ^ b.2 = 2 ^ b.2 * (m + 1) := by rw [hm, mul_add, mul_one]
      _ ≤ 2 ^ b.2 * (2 ^ (c.2 - b.2) * (m / 2 ^ (c.2 - b.2)) + 2 ^ (c.2 - b.2)) :=
        Nat.mul_le_mul_left _ hple
      _ = 2 ^ c.2 * (m / 2 ^ (c.2 - b.2)) + 2 ^ c.2 := by
        rw [mul_add, ← mul_assoc, hpow]
      _ = c.1 + 2 ^ c.2 := by rw [hn, hn2]

/-- Starting the greedy cover at a smaller (feasible) aligned step never
shortens it: the tail beyond the largest aligned block is a lower bound. -/
theorem rangeToCidrs_len_mono (s e J k : Nat) (he : e < 2 ^ 32) (hkJ : k ≤ J)
    (hdvd : 2 ^ J ∣ s) (hfit : s + 2 ^ J ≤ e + 1) :
    (rangeToCidrs (s + 2 ^ J) e).length ≤ (rangeToCidrs (s + 2 ^ k) e).length := by
  rcases Nat.eq_or_lt_of_le hkJ with heq | hlt
  · subst heq
    exact le_refl _
  · have hkd : 2 ^ (k + 1) ∣ s := dvd_trans (pow_dvd_pow 2 (by omega)) hdvd
    have hk1 : (2 : Nat) ^ (k + 1) = 2 ^ k + 2 ^ k := by rw [pow_succ]; omega
    have h2kJ : (2 : Nat) ^ (k + 1) ≤ 2 ^ J := Nat.pow_le_pow_right (by norm_num) (by omega)
    have hkpos := Nat.two_pow_pos k
    have hs2 : s + 2 ^ k ≤ e := by omega
    have hexp : maxBlockExp (s + 2 ^ k) e = k := by
      have hfeas : 2 ^ k ∣ s + 2 ^ k :=
        dvd_add (dvd_trans (pow_dvd_pow 2 (by omega)) hdvd) dvd_rfl
      have hfit2 : s + 2 ^ k + 2 ^ k ≤ e + 1 := by omega
      have hle : k ≤ maxBlockExp (s + 2 ^ k) e :=
        maxBlockExp_max (s + 2 ^ k) e k he hfeas hfit2
      have hge : maxBlockExp (s + 2 ^ k) e ≤ k := by
        by_contra hcon
        push_neg at hcon
        have hspec := maxBlockExp_spec (s + 2 ^ k) e hs2
        have hdd : 2 ^ (k + 1) ∣ s + 2 ^ k :=
          dvd_trans (pow_dvd_pow 2 (by omega)) hspec.1
        have hdk : 2 ^ (k + 1) ∣ 2 ^ k := (Nat.dvd_add_right hkd).mp hdd
        have hle2 : 2 ^ (k + 1) ≤ 2 ^ k := Nat.le_of_dvd (Nat.two_pow_pos k) hdk
        omega
      omega
    rw [rangeToCidrs_eq (s + 2 ^ k) e, if_pos hs2, hexp, List.length_cons]
    have harg : s + 2 ^ k + 2 ^ k = s + 2 ^ (k + 1) := by omega
    rw [harg]
    have ih := rangeToCidrs_len_mono s e J (k + 1) he (by omega) hdvd hfit
    omega
termination_by J - k

/-- Dropping one element by a filter shortens the list. -/
theorem length_filter_lt {α : Type} (p : α → Bool) :
    ∀ (l : List α) (b : α), b ∈ l → p b = false →
      (l.filter p).length < l.length := by
  intro l
  induction l with
  | nil => intro b hb _; simp at hb
  | cons a rest ih =>
    intro b hb hpb
    rw [List.filter_cons]
    by_cases hpa : p a = true
    · rw [if_pos hpa]
      rcases List.mem_cons.mp hb with h1 | h1
      · subst h1
        rw [hpb] at hpa
        cases hpa
      · have := ih b h1 hpb
        simp only [List.length_cons]
        omega
    · rw [if_neg hpa]
      have := List.length_filter_le p rest
      simp only [List.length_cons]
      omega

/-- Minimality: any list of aligned power-of-two blocks whose union is
exactly `[s, e]` has at least as many blocks as the greedy cover. -/
theorem rangeToCidrs_minimal (s e : Nat) (he : e < 2 ^ 32) (h : s ≤ e)
    (l : List (Nat × Nat)) (hal : ∀ b ∈ l, 2 ^ b.2 ∣ b.1)
    (hcov : ∀ x, (∃ b ∈ l, inBlock x b) ↔ (s ≤ x ∧ x ≤ e)) :
    (rangeToCidrs s e).length ≤ l.length := by
  have hstart : ∀ b ∈ l, inBlock s b → b.1 = s := by
    intro b hb hsb
    have hpos := Nat.two_pow_pos b.2
    have hself : inBlock b.1 b := ⟨le_refl _, by omega⟩
    have hmem := (hcov b.1).mp ⟨b, hb, hself⟩
    have h1 := hsb.1
    omega
  obtain ⟨b0', hb0'l, hb0'x⟩ := (hcov s).mpr ⟨le_refl s, h⟩
  have hb0'f : b0' ∈ l.filter (fun b => decide (inBlock s b)) :=
    List.mem_filter.mpr ⟨hb0'l, decide_eq_true hb0'x⟩
  cases hm : (l.filter (fun b => decide (inBlock s b))).argmax (fun b => b.2) with
  | none => exact absurd (List.argmax_eq_none.mp hm) (List.ne_nil_of_mem hb0'f)
  | some b0 =>
    rcases List.mem_filter.mp (List.argmax_mem hm) with ⟨hb0l, hb0dx⟩
    have hb0x : inBlock s b0 := of_decide_eq_true hb0dx
    have hb0s : b0.1 = s := hstart b0 hb0l hb0x
    have hmax : ∀ d ∈ l, inBlock s d → d.2 ≤ b0.2 := by
      intro d hd hdx
      have hdf : d ∈ l.filter (fun b => decide (inBlock s b)) :=
        List.mem_filter.mpr ⟨hd, decide_eq_true hdx⟩
      exact le_of_not_lt (List.not_lt_of_mem_argmax hdf hm)
    have hpos : 0 < 2 ^ b0.2 := Nat.two_pow_pos _
    have htop : s + 2 ^ b0.2 ≤ e + 1 := by
      have hin : inBlock (s + 2 ^ b0.2 - 1) b0 := ⟨by omega, by omega⟩
      have := (hcov (s + 2 ^ b0.2 - 1)).mp ⟨b0, hb0l, hin⟩
      omega
    have hkJ : b0.2 ≤ maxBlockExp s e := by
      apply maxBlockExp_max s e b0.2 he _ htop
      have hd := hal b0 hb0l
      rw [hb0s] at hd
      exact hd
    rcases maxBlockExp_spec s e h with ⟨hJd, hJf⟩
    have hJpos := Nat.two_pow_pos (maxBlockExp s e)
    rw [rangeToCidrs_eq, if_pos h, List.length_cons]
    by_cases hcase : s + 2 ^ b0.2 ≤ e
    · have hmem' : ∀ b, b ∈ l.filter (fun b =>
          !(decide (b0.1 ≤ b.1 ∧ b.1 + 2 ^ b.2 ≤ b0.1 + 2 ^ b0.2))) ↔
          b ∈ l ∧ ¬(b0.1 ≤ b.1 ∧ b.1 + 2 ^ b.2 ≤ b0.1 + 2 ^ b0.2) := by
        intro b
        rw [List.mem_filter]
        constructor
        · rintro ⟨h1, h2⟩
          rw [Bool.not_eq_true'] at h2
          exact ⟨h1, of_decide_eq_false h2⟩
        · rintro ⟨h1, h2⟩
          refine ⟨h1, ?_⟩
          rw [Bool.not_eq_true']
          exact decide_eq_false h2
      have hcov' : ∀ x, (∃ b ∈ l.filter (fun b =>
          !(decide (b0.1 ≤ b.1 ∧ b.1 + 2 ^ b.2 ≤ b0.1 + 2 ^ b0.2))), inBlock x b) ↔
          (s + 2 ^ b0.2 ≤ x ∧ x ≤ e) := by
        intro x
        constructor
        · rintro ⟨b, hbl', hxb⟩
          rcases (hmem' b).mp hbl' with ⟨hbl, hnsub⟩
          have hrange := (hcov x).mp ⟨b, hbl, hxb⟩
          refine ⟨?_, hrange.2⟩
          by_contra hxlt
          push_neg at hxlt
          have hxb0 : inBlock x b0 := ⟨by omega, by omega⟩
          rcases le_total b.2 b0.2 with hle | hle
          · have hsub := dyadic_laminar b b0 (hal b hbl) (hal b0 hb0l) x hxb hxb0 hle
            exact hnsub hsub
          · have hsub0 := dyadic_laminar b0 b (hal b0 hb0l) (hal b hbl) x hxb0 hxb hle
            have hsb : inBlock s b := ⟨by omega, by omega⟩
            have hbeq : b.2 = b0.2 := le_antisymm (hmax b hbl hsb) hle
            have hb1 : b.1 = s := hstart b hbl hsb
            have hpeq : 2 ^ b.2 = 2 ^ b0.2 := by rw [hbeq]
            exact hnsub ⟨by omega, by omega⟩
        · rintro ⟨hx1, hx2⟩
          have hx0 : s ≤ x := by omega
          rcases (hcov x).mpr ⟨hx0, hx2⟩ with ⟨b, hbl, hxb⟩
          refine ⟨b, (hmem' b).mpr ⟨hbl, ?_⟩, hxb⟩
          rintro ⟨hs1, hs2⟩
          have hxtop := hxb.2
          omega
      have hp0 : (fun b =>
          !(decide (b0.1 ≤ b.1 ∧ b.1 + 2 ^ b.2 ≤ b0.1 + 2 ^ b0.2))) b0 = false := by
        rw [Bool.not_eq_false']
        exact decide_eq_true ⟨le_refl _, le_refl _⟩
      have hlt : (l.filter (fun b =>
          !(decide (b0.1 ≤ b.1 ∧ b.1 + 2 ^ b.2 ≤ b0.1 + 2 ^ b0.2)))).length < l.length :=
        length_filter_lt _ l b0 hb0l hp0
      have hal' : ∀ b ∈ l.filter (fun b =>
          !(decide (b0.1 ≤ b.1 ∧ b.1 + 2 ^ b.2 ≤ b0.1 + 2 ^ b0.2))), 2 ^ b.2 ∣ b.1 :=
        fun b hb => hal b ((hmem' b).mp hb).1
      have ihmin := rangeToCidrs_minimal (s + 2 ^ b0.2) e he hcase
        (l.filter (fun b =>
          !(decide (b0.1 ≤ b.1 ∧ b.1 + 2 ^ b.2 ≤ b0.1 + 2 ^ b0.2)))) hal' hcov'
      have hmono := rangeToCidrs_len_mono s e (maxBlockExp s e) b0.2 he hkJ hJd hJf
      omega
    · have hJk : maxBlockExp s e ≤ b0.2 := by
        have h2 : 2 ^ maxBlockExp s e ≤ 2 ^ b0.2 := by omega
        exact (Nat.pow_le_pow_iff_right (by norm_num)).mp h2
      have hJeq : b0.2 = maxBlockExp s e := le_antisymm hkJ hJk
      have hrest : rangeToCidrs (s + 2 ^ maxBlockExp s e) e = [] := by
        rw [rangeToCidrs_eq, if_neg _]
        have hpe : 2 ^ b0.2 = 2 ^ maxBlockExp s e := by rw [hJeq]
        omega
      rw [hrest]
      simp only [List.length_nil]
      have hl : 0 < l.length := List.length_pos.mpr (List.ne_nil_of_mem hb0l)
      omega
termination_by e + 1 - s
decreasing_by
  omega

/-! ## Parser bounds -/

/-- A parsed octet is below 256. -/
theorem parseOctet_lt (s : String) (n : Nat) (h : parseOctet s = some n) :
    n < 256 := by
  simp only [parseOctet] at h
  split_ifs at h with h1 h2
  injection h with he
  omega

/-- A parsed IPv4 address is below `2 ^ 32`. -/
theorem parseIPv4_lt (t : String) (n : Nat) (h : parseIPv4 t = some n) :
    n < 2 ^ 32 := by
  have hp32 : (2 : Nat) ^ 32 = 4294967296 := by norm_num
  simp only [parseIPv4] at h
  split at h
  · split at h
    · rename_i oa ob oc od hoa hob hoc hod
      injection h with he
      have ha := parseOctet_lt _ _ hoa
      have hb := parseOctet_lt _ _ hob
      have hc := parseOctet_lt _ _ hoc
      have hd := parseOctet_lt _ _ hod
      omega
    · exact Option.noConfusion h
  · exact Option.noConfusion h

/-- A successfully parsed range is ordered and inside the IPv4 space. -/
theorem parseRange_bounds (t : String) (s e : Nat)
    (h : parseRange t = some (s, e)) : s ≤ e ∧ e < 2 ^ 32 := by
  simp only [parseRange] at h
  split at h
  · split at h
    · rename_i lo hi hlo hhi
      split_ifs at h with hle
      · injection h with he
        cases he
        exact ⟨hle, parseIPv4_lt _ _ hhi⟩
    · exact Option.noConfusion h
  · exact Option.noConfusion h

/-! ## Extractor equivalence lemmas -/

/-- On a field with a non-empty value the XML and JSON extraction steps
perform the same dict update. -/
theorem fieldStep_agree (filters : List String) (acc : Rec) (n v : String)
    (hv : v ≠ "") :
    xmlFieldStep filters acc ⟨some n, if v = "" then none else some v⟩ =
      some (jsonFieldStep filters acc ⟨some n, some v⟩) := by
  rw [if_neg hv]
  simp only [xmlFieldStep, jsonFieldStep]
  by_cases hn : n ≠ ""
  · have hnv : n ≠ "" ∧ v ≠ "" := ⟨hn, hv⟩
    rw [if_pos hn, if_pos hnv]
    by_cases hi : pyLower n = "inetnum"
    · rw [if_pos hi, if_pos hi]
    · rw [if_neg hi, if_neg hi]
      by_cases hfl : filters = [] ∨ pyLower n ∈ filters
      · rw [if_pos hfl, if_pos hfl]
      · rw [if_neg hfl, if_neg hfl]
  · rw [if_neg hn, if_neg (fun hcon => hn hcon.1)]

/-- Folding one logical entry's fields through the two extractors agrees
whenever every field value is non-empty. -/
theorem foldStep_agree (filters : List String) :
    ∀ (fields : List (String × String)) (acc : Rec),
      (∀ p ∈ fields, p.2 ≠ "") →
      foldOption (xmlFieldStep filters) acc (encodeXmlEntry fields) =
        some (List.foldl (jsonFieldStep filters) acc (encodeJsonEntry fields)) := by
  intro fields
  induction fields with
  | nil => intro acc _; rfl
  | cons p rest ih =>
    intro acc hv
    have hp := hv p (List.mem_cons_self p rest)
    simp only [encodeXmlEntry, encodeJsonEntry, List.map_cons, List.foldl_cons,
      foldOption]
    rw [fieldStep_agree filters acc p.1 p.2 hp]
    exact ih (jsonFieldStep filters acc ⟨some p.1, some p.2⟩)
      (fun q hq => hv q (List.mem_cons_of_mem p hq))

/-! ## The claims -/

/-- C2: every range text the parser rejects (malformed syntax, invalid
address, or inverted bounds) makes `convert_to_cidr` return the original
input unchanged as a single-element list, without raising. -/
theorem convert_to_cidr_malformed (t : String) (hp : parseRange t = none) :
    convert_to_cidr t = [t] := by
  unfold convert_to_cidr
  rw [hp]

/-- Witness for C2 at a syntactically malformed text, an invalid
address, and an inverted range. -/
theorem convert_to_cidr_malformed_witness :
    convert_to_cidr "just-text" = ["just-text"] ∧
    convert_to_cidr "10.0.0.banana - 10.0.0.2" = ["10.0.0.banana - 10.0.0.2"] ∧
    convert_to_cidr "192.0.2.5 - 192.0.2.1" = ["192.0.2.5 - 192.0.2.1"] :=
  ⟨convert_to_cidr_malformed "just-text" (by decide),
    convert_to_cidr_malformed "10.0.0.banana - 10.0.0.2" (by decide),
    convert_to_cidr_malformed "192.0.2.5 - 192.0.2.1" (by decide)⟩

/-- C3 (amended): as long as every field value of the logical response
is non-empty, extracting through the XML encoding and through the JSON
encoding of the response produce identical record lists. -/
theorem extract_xml_json_agree (resp : List (List (String × String)))
    (filters : List String)
    (hv : ∀ entry ∈ resp, ∀ p ∈ entry, p.2 ≠ "") :
    extractXmlLogical resp filters = some (extractJsonLogical resp filters) := by
  revert hv
  induction resp with
  | nil => intro _; rfl
  | cons doc rest ih =>
    intro hv
    have ih2 := ih (fun en hen => hv en (List.mem_cons_of_mem doc hen))
    simp only [extractXmlLogical, extractJsonLogical, extract_fields_from_xml,
      extract_fields_from_json, List.map_cons, mapOption] at ih2 ⊢
    rw [foldStep_agree filters doc [] (hv doc (List.mem_cons_self doc rest)),
      Option.map_some', ih2]

/-- Witness for C3's amended theorem at a concrete two-field response. -/
theorem extract_xml_json_agree_witness :
    extractXmlLogical [[("Foo", " v "), ("inetnum", "10.0.0.0 - 10.0.0.7")]]
        ["inetnum"] =
      some (extractJsonLogical [[("Foo", " v "), ("inetnum", "10.0.0.0 - 10.0.0.7")]]
        ["inetnum"]) :=
  extract_xml_json_agree [[("Foo", " v "), ("inetnum", "10.0.0.0 - 10.0.0.7")]]
    ["inetnum"] (by decide)

/-- Counterexample to C3 as stated: on a logical response holding an
empty-valued field the XML-encoding extractor raises (`None.strip()`)
while the JSON-encoding extractor silently drops the field, so the two
extractions are not identical. -/
theorem extract_xml_json_diverge :
    extractXmlLogical [[("foo", "")]] [] = none ∧
    extractJsonLogical [[("foo", "")]] [] = [[]] ∧
    extractXmlLogical [[("foo", "")]] [] ≠
      some (extractJsonLogical [[("foo", "")]] []) := by
  refine ⟨by decide, by decide, by decide⟩

/-- C4: with a non-empty allow-list the headers are the allow-list in
caller order, always; without one they are the sorted, duplicate-free
union of all field names across the records. -/
theorem prepare_targets_headers_spec (entries : List Rec) (filters : List String)
    (c u : Bool) :
    (filters ≠ [] → (prepare_targets entries filters c u).1 = filters) ∧
    (filters = [] →
      (prepare_targets entries filters c u).1.Sorted (fun a b => a ≤ b) ∧
      (prepare_targets entries filters c u).1.Nodup ∧
      (∀ x, x ∈ (prepare_targets entries filters c u).1 ↔
        ∃ entry ∈ entries, x ∈ dictKeys entry)) := by
  constructor
  · intro hf
    rw [prepare_targets_eq, if_neg hf]
  · intro hf
    subst hf
    rw [prepare_targets_eq, if_pos rfl]
    refine ⟨List.sorted_insertionSort _ _, ?_, ?_⟩
    · exact ((List.perm_insertionSort _ _).nodup_iff).mpr (List.nodup_dedup _)
    · intro x
      show x ∈ sortStrings (entries.flatMap dictKeys).dedup ↔ _
      rw [sortStrings, (List.perm_insertionSort _ _).mem_iff, List.mem_dedup,
        List.mem_flatMap]

/-- Witness for C4 at concrete inputs for both branches. -/
theorem prepare_targets_headers_witness :
    (prepare_targets [[("b", "1")]] ["a", "b"] false false).1 = ["a", "b"] ∧
    ((prepare_targets [[("b", "1"), ("a", "2")]] [] false false).1.Sorted
        (fun x y => x ≤ y) ∧
      (prepare_targets [[("b", "1"), ("a", "2")]] [] false false).1.Nodup ∧
      (∀ x, x ∈ (prepare_targets [[("b", "1"), ("a", "2")]] [] false false).1 ↔
        ∃ entry ∈ [[("b", "1"), ("a", "2")]], x ∈ dictKeys entry)) :=
  ⟨(prepare_targets_headers_spec [[("b", "1")]] ["a", "b"] false false).1 (by decide),
    (prepare_targets_headers_spec [[("b", "1"), ("a", "2")]] [] false false).2 rfl⟩

/-- C5: enabling dedupe keeps exactly the first occurrence of every row
of the non-deduplicated output (hence a duplicate-free sublist in
first-occurrence order); with dedupe off no row is removed and the rows
follow the accumulation order of the records. -/
theorem prepare_targets_dedupe_spec (entries : List Rec) (filters : List String)
    (c : Bool) :
    (prepare_targets entries filters c true).2 =
        eraseDupsKeepFirst ((prepare_targets entries filters c false).2) ∧
    ((prepare_targets entries filters c true).2).Sublist
        ((prepare_targets entries filters c false).2) ∧
    ((prepare_targets entries filters c true).2).Nodup ∧
    (filters = [] →
      (prepare_targets entries filters c false).2 =
        (entries.map (fun en => buildRow (allHeaders entries) en c)).filter
          (fun r => r.any (fun cell => cell ≠ ""))) ∧
    (filters ≠ [] →
      (prepare_targets entries filters c false).2 =
        ((entries.filter (fun en => !allFiltersEmpty en filters)).map
            (fun en => buildRow filters en c)).filter
          (fun r => r.any (fun cell => cell ≠ ""))) := by
  have hdedupe : (prepare_targets entries filters c true).2 =
      eraseDupsKeepFirst ((prepare_targets entries filters c false).2) := by
    rw [prepare_targets_eq, prepare_targets_eq]
    by_cases hf : filters = []
    · rw [if_pos hf, if_pos hf]
      exact prepAux_dedupe _ _ _ _ entries []
    · rw [if_neg hf, if_neg hf]
      exact prepAux_dedupe _ _ _ _ entries []
  refine ⟨hdedupe, ?_, ?_, ?_, ?_⟩
  · rw [hdedupe]
    exact eraseDupsAux_sublist _ _
  · rw [hdedupe]
    exact (eraseDupsAux_nodup _ _).1
  · intro hf
    subst hf
    rw [prepare_targets_eq, if_pos rfl]
    show prepAux _ false [] c false entries [] = _
    rw [prepAux_no_dedupe]
    have hall : entries.filter
        (fun en => !(false && allFiltersEmpty en ([] : List String))) = entries :=
      List.filter_eq_self.mpr (fun a _ => rfl)
    rw [hall]
  · intro hf
    rw [prepare_targets_eq, if_neg hf]
    show prepAux filters true filters c false entries [] = _
    rw [prepAux_no_dedupe]
    rfl

/-- Witness for C5's branch implications at concrete inputs. -/
theorem prepare_targets_dedupe_witness :
    (prepare_targets [[("a", "x")], [("a", "x")]] ["a"] false true).2 =
        eraseDupsKeepFirst
          ((prepare_targets [[("a", "x")], [("a", "x")]] ["a"] false false).2) ∧
    ((prepare_targets [[("a", "x")], [("a", "x")]] [] false false).2 =
      ([[("a", "x")], [("a", "x")]].map
          (fun en => buildRow (allHeaders [[("a", "x")], [("a", "x")]]) en false)).filter
        (fun r => r.any (fun cell => cell ≠ ""))) ∧
    ((prepare_targets [[("a", "x")], [("a", "x")]] ["a"] false false).2 =
      (([[("a", "x")], [("a", "x")]].filter
            (fun en => !allFiltersEmpty en ["a"])).map
          (fun en => buildRow ["a"] en false)).filter
        (fun r => r.any (fun cell => cell ≠ ""))) :=
  ⟨(prepare_targets_dedupe_spec [[("a", "x")], [("a", "x")]] ["a"] false).1,
    (prepare_targets_dedupe_spec [[("a", "x")], [("a", "x")]] [] false).2.2.2.1 rfl,
    (prepare_targets_dedupe_spec [[("a", "x")], [("a", "x")]] ["a"] false).2.2.2.2
      (by decide)⟩

/-- C6: no all-empty row ever reaches the output, and with a non-empty
allow-list a record whose allow-listed fields are all empty is skipped
outright (filtering it away changes nothing). -/
theorem prepare_targets_no_blank_spec (entries : List Rec) (filters : List String)
    (c u : Bool) :
    (∀ row ∈ (prepare_targets entries filters c u).2, ∃ cell ∈ row, cell ≠ "") ∧
    (filters ≠ [] →
      prepare_targets entries filters c u =
        prepare_targets (entries.filter (fun en => !allFiltersEmpty en filters))
          filters c u) := by
  constructor
  · intro row hrow
    have h2 : row.any (fun cell => cell ≠ "") = true := by
      rw [prepare_targets_eq] at hrow
      by_cases hf : filters = []
      · rw [if_pos hf] at hrow
        exact (prepAux_mem hrow).2
      · rw [if_neg hf] at hrow
        exact (prepAux_mem hrow).2
    rcases List.any_eq_true.mp h2 with ⟨cell, hc1, hc2⟩
    exact ⟨cell, hc1, of_decide_eq_true hc2⟩
  · intro hf
    rw [prepare_targets_eq, prepare_targets_eq, if_neg hf, if_neg hf]
    exact congrArg (fun t => (filters, t)) (prepAux_prefilter filters filters c u entries [])

/-- Witness for C6 at a concrete input with an all-empty record. -/
theorem prepare_targets_no_blank_witness :
    (∀ row ∈ (prepare_targets [[("a", "")], [("a", "1")]] ["a"] false false).2,
      ∃ cell ∈ row, cell ≠ "") ∧
    prepare_targets [[("a", "")], [("a", "1")]] ["a"] false false =
      prepare_targets ([[("a", "")], [("a", "1")]].filter
        (fun en => !allFiltersEmpty en ["a"])) ["a"] false false :=
  ⟨(prepare_targets_no_blank_spec [[("a", "")], [("a", "1")]] ["a"] false false).1,
    (prepare_targets_no_blank_spec [[("a", "")], [("a", "1")]] ["a"] false false).2
      (by decide)⟩

/-- C7: a cell is replaced by the comma-joined CIDR conversion exactly
when its header is `inetnum`, the CIDR flag is set and the value is
non-empty; in particular the spec's scenario row becomes
`["192.0.2.0/30"]`. -/
theorem prepare_targets_cidr_cell_spec :
    (∀ (hdrs : List String) (entry : Rec) (c : Bool),
      buildRow hdrs entry c = hdrs.map (fun f =>
        if f = "inetnum" ∧ c = true ∧ dictGet entry f "" ≠ "" then
          pyJoin "," (convert_to_cidr (dictGet entry f ""))
        else dictGet entry f "")) ∧
    (∀ u, prepare_targets [[("inetnum", "192.0.2.0 - 192.0.2.3")]] ["inetnum"] true u =
      (["inetnum"], [["192.0.2.0/30"]])) := by
  constructor
  · intro hdrs entry c
    rfl
  · intro u
    cases u
    · decide
    · decide

/-- C8 (amended): the JSON renderer's data is the `dict(zip(...))`
objects for several headers, the bare first cells for exactly one header
provided every row is non-empty, and the empty array for no headers. -/
theorem output_results_json_shape (headers : List String) (rows : List (List String)) :
    (headers.length > 1 →
      output_results_json headers rows =
        some (.arr (rows.map (fun row => .obj (pyDict (headers.zip row)))))) ∧
    (headers.length = 1 → (∀ r ∈ rows, r ≠ []) →
      output_results_json headers rows =
        some (.arr (rows.map (fun row => .str (row.headD ""))))) ∧
    (headers = [] → output_results_json headers rows = some (.arr [])) := by
  refine ⟨?_, ?_, ?_⟩
  · intro h1
    rw [output_results_json, if_pos h1]
  · intro h1 h2
    rw [output_results_json, if_neg (by omega), if_pos h1, mapOption_head h2,
      Option.map_some', List.map_map]
    rfl
  · intro h1
    subst h1
    rfl

/-- Counterexample to C8 as stated: with one header and an empty row the
renderer raises (`row[0]`) instead of emitting an array. -/
theorem output_results_json_single_empty_row :
    output_results_json ["h"] [[]] = none := rfl

/-- C9 (amended): the table scenario's column widths are 1 and 2 and its
separator line is `"--+---"` (`'-'` runs joined by `'-+-'`). -/
theorem print_table_scenario :
    computeWidths ["a", "bb"] [["1", "22"]] = some [1, 2] ∧
    print_table ["a", "bb"] [["1", "22"]] =
      some ["a | bb", "--+---", "1 | 22"] := by
  constructor
  · decide
  · decide

/-- Counterexample to C9 as stated: the separator line printed between
the header line and the data rows is not `"- | --"`. -/
theorem print_table_separator_diverges :
    (print_table ["a", "bb"] [["1", "22"]]).bind (fun ls => ls[1]?) ≠
      some "- | --" := by
  decide

/-- C10: every row carries exactly one cell per header and a non-empty
cell, so the JSON and XML renderers never index out of bounds on rows
produced by `prepare_targets`. -/
theorem prepare_targets_renderer_safe (entries : List Rec) (filters : List String)
    (c u : Bool) :
    (∀ row ∈ (prepare_targets entries filters c u).2,
      row.length = (prepare_targets entries filters c u).1.length ∧ row ≠ []) ∧
    (output_results_json (prepare_targets entries filters c u).1
        (prepare_targets entries filters c u).2).isSome = true ∧
    (output_results_xml (prepare_targets entries filters c u).1
        (prepare_targets entries filters c u).2).isSome = true := by
  have hrows : ∀ row ∈ (prepare_targets entries filters c u).2,
      row.length = (prepare_targets entries filters c u).1.length ∧ row ≠ [] := by
    intro row hrow
    rw [prepare_targets_eq] at hrow ⊢
    by_cases hf : filters = []
    · rw [if_pos hf] at hrow ⊢
      rcases prepAux_mem hrow with ⟨hl, ha⟩
      rcases List.any_eq_true.mp ha with ⟨cell, hc1, _⟩
      exact ⟨hl, List.ne_nil_of_mem hc1⟩
    · rw [if_neg hf] at hrow ⊢
      rcases prepAux_mem hrow with ⟨hl, ha⟩
      rcases List.any_eq_true.mp ha with ⟨cell, hc1, _⟩
      exact ⟨hl, List.ne_nil_of_mem hc1⟩
  refine ⟨hrows, ?_, ?_⟩
  · rw [output_results_json]
    by_cases h1 : (prepare_targets entries filters c u).1.length > 1
    · rw [if_pos h1]
      rfl
    · rw [if_neg h1]
      by_cases h2 : (prepare_targets entries filters c u).1.length = 1
      · rw [if_pos h2, Option.isSome_map']
        exact mapOption_isSome _ _ (fun row hrow =>
          List.head?_isSome.mpr (hrows row hrow).2)
      · rw [if_neg h2]
        rfl
  · rw [output_results_xml]
    by_cases h1 : (prepare_targets entries filters c u).1.length > 1
    · rw [if_pos h1]
      rfl
    · rw [if_neg h1]
      by_cases h2 : (prepare_targets entries filters c u).1.length = 1
      · rw [if_pos h2, Option.isSome_map']
        exact mapOption_isSome _ _ (fun row hrow => by
          rw [Option.isSome_map']
          exact List.head?_isSome.mpr (hrows row hrow).2)
      · rw [if_neg h2]
        rfl

/-- C1: on every valid range text with `start ≤ end`, `convert_to_cidr`
returns the canonical strings of the greedy cover, whose blocks union to
exactly the inclusive address range, are pairwise non-overlapping and in
ascending address order, are aligned and within range, and are minimal
in count among all exact aligned covers. -/
theorem convert_to_cidr_correct (t : String) (s e : Nat)
    (hp : parseRange t = some (s, e)) :
    s ≤ e ∧ e < 2 ^ 32 ∧
    convert_to_cidr t = (rangeToCidrs s e).map blockToString ∧
    (∀ x, (∃ b ∈ rangeToCidrs s e, inBlock x b) ↔ (s ≤ x ∧ x ≤ e)) ∧
    List.Pairwise (fun b b2 => b.1 + 2 ^ b.2 ≤ b2.1) (rangeToCidrs s e) ∧
    (∀ b ∈ rangeToCidrs s e, 2 ^ b.2 ∣ b.1 ∧ s ≤ b.1 ∧ b.1 + 2 ^ b.2 ≤ e + 1) ∧
    (∀ l : List (Nat × Nat), (∀ b ∈ l, 2 ^ b.2 ∣ b.1) →
      (∀ x, (∃ b ∈ l, inBlock x b) ↔ (s ≤ x ∧ x ≤ e)) →
      (rangeToCidrs s e).length ≤ l.length) := by
  rcases parseRange_bounds t s e hp with ⟨hse, he⟩
  refine ⟨hse, he, ?_, fun x => rangeToCidrs_union s e x hse,
    rangeToCidrs_pairwise s e, ?_,
    fun l hal hcov => rangeToCidrs_minimal s e he hse l hal hcov⟩
  · unfold convert_to_cidr
    rw [hp]
  · intro b hb
    rcases rangeToCidrs_blocks s e b hb with ⟨h1, h2, h3⟩
    exact ⟨h3, h1, h2⟩

/-- Witness for C1 at the text `"192.0.2.0 - 192.0.2.3"`
(`192.0.2.0 = 3221225984`). -/
theorem convert_to_cidr_correct_witness :
    parseRange "192.0.2.0 - 192.0.2.3" = some (3221225984, 3221225987) ∧
    (3221225984 ≤ 3221225987 ∧ 3221225987 < 2 ^ 32 ∧
      convert_to_cidr "192.0.2.0 - 192.0.2.3" =
        (rangeToCidrs 3221225984 3221225987).map blockToString ∧
      (∀ x, (∃ b ∈ rangeToCidrs 3221225984 3221225987, inBlock x b) ↔
        (3221225984 ≤ x ∧ x ≤ 3221225987)) ∧
      List.Pairwise (fun b b2 => b.1 + 2 ^ b.2 ≤ b2.1)
        (rangeToCidrs 3221225984 3221225987) ∧
      (∀ b ∈ rangeToCidrs 3221225984 3221225987,
        2 ^ b.2 ∣ b.1 ∧ 3221225984 ≤ b.1 ∧ b.1 + 2 ^ b.2 ≤ 3221225987 + 1) ∧
      (∀ l : List (Nat × Nat), (∀ b ∈ l, 2 ^ b.2 ∣ b.1) →
        (∀ x, (∃ b ∈ l, inBlock x b) ↔ (3221225984 ≤ x ∧ x ≤ 3221225987)) →
        (rangeToCidrs 3221225984 3221225987).length ≤ l.length)) :=
  ⟨by decide,
    convert_to_cidr_correct "192.0.2.0 - 192.0.2.3" 3221225984 3221225987 (by decide)⟩

end RipeTool
